import Mathlib

/-
Verification of the state-vector circuit engine of the `quantum_simulator` crate
(`src/quantum_simulator/src/circuit.rs` and `src/quantum_simulator/src/gates.rs`).

The engine stores a flat array of `2^n` complex amplitudes (`DVector<Complex<f64>>`).
We embed the amplitude array as a function `ℕ → ℂ` (f64 arithmetic is modelled by
exact real arithmetic on `ℝ`, so `Complex<f64>` becomes `ℂ`); only indices below
`2^n` are meaningful, and every loop of the source iterates over `0..2^n` exactly
as written.  Rust's in-place writes into a freshly allocated array are modelled by
a `List.foldl` over `List.range (2^n)` threading the array being built through
`Function.update`, mirroring the source loops statement by statement.

Bit operations are translated literally: `1 << target` is `1 <<< t`,
`i | (1 << target)` is `i ||| (1 <<< t)`, and `i & !(1 << target)` (complement on
a fixed-width machine integer) is `(i ||| (1 <<< t)) ^^^ (1 <<< t)`, which is the
same function of `i`: or-ing sets bit `t`, xor-ing then clears exactly that bit,
and all other bits are untouched.
-/

namespace QuantumSim

open Complex

/-- Amplitude array of the circuit (`state: DVector<Complex<f64>>` in the source),
indexed by basis index; only indices `< 2^n` are used. -/
abbrev QState := ℕ → ℂ

/-- Complex number from real and imaginary parts, mirroring `Complex::new(re, im)`. -/
def cplx (a b : ℝ) : ℂ := ⟨a, b⟩

/-- Rust `i | (1 << target)`: set bit `t` of `i`. -/
def setTargetBit (t i : ℕ) : ℕ := i ||| (1 <<< t)

/-- Rust `i & !(1 << target)`: clear bit `t` of `i`, written over `ℕ` as
`(i ||| (1 <<< t)) ^^^ (1 <<< t)` (set the bit, then toggle it off). -/
def clearTargetBit (t i : ℕ) : ℕ := (i ||| (1 <<< t)) ^^^ (1 <<< t)

theorem one_shiftLeft_eq (t : ℕ) : 1 <<< t = 2 ^ t := Nat.one_shiftLeft t

theorem testBit_setTargetBit_self (t i : ℕ) : (setTargetBit t i).testBit t = true := by
  simp [setTargetBit, one_shiftLeft_eq, Nat.testBit_lor, Nat.testBit_two_pow_self]

theorem testBit_setTargetBit_ne (t i k : ℕ) (h : k ≠ t) :
    (setTargetBit t i).testBit k = i.testBit k := by
  simp [setTargetBit, one_shiftLeft_eq, Nat.testBit_lor,
    Nat.testBit_two_pow_of_ne (Ne.symm h)]

theorem testBit_clearTargetBit_self (t i : ℕ) : (clearTargetBit t i).testBit t = false := by
  simp [clearTargetBit, one_shiftLeft_eq, Nat.testBit_xor, Nat.testBit_lor,
    Nat.testBit_two_pow_self]

theorem testBit_clearTargetBit_ne (t i k : ℕ) (h : k ≠ t) :
    (clearTargetBit t i).testBit k = i.testBit k := by
  simp [clearTargetBit, one_shiftLeft_eq, Nat.testBit_xor, Nat.testBit_lor,
    Nat.testBit_two_pow_of_ne (Ne.symm h)]

theorem clearTargetBit_of_testBit_false {t i : ℕ} (h : i.testBit t = false) :
    clearTargetBit t i = i := by
  refine Nat.eq_of_testBit_eq fun k => ?_
  by_cases hk : k = t
  · subst hk; rw [testBit_clearTargetBit_self, h]
  · exact testBit_clearTargetBit_ne t i k hk

theorem setTargetBit_of_testBit_true {t i : ℕ} (h : i.testBit t = true) :
    setTargetBit t i = i := by
  refine Nat.eq_of_testBit_eq fun k => ?_
  by_cases hk : k = t
  · subst hk; rw [testBit_setTargetBit_self, h]
  · exact testBit_setTargetBit_ne t i k hk

theorem clearTargetBit_setTargetBit (t i : ℕ) :
    clearTargetBit t (setTargetBit t i) = clearTargetBit t i := by
  refine Nat.eq_of_testBit_eq fun k => ?_
  by_cases hk : k = t
  · subst hk; rw [testBit_clearTargetBit_self, testBit_clearTargetBit_self]
  · rw [testBit_clearTargetBit_ne t _ k hk, testBit_clearTargetBit_ne t _ k hk,
      testBit_setTargetBit_ne t i k hk]

theorem setTargetBit_clearTargetBit (t i : ℕ) :
    setTargetBit t (clearTargetBit t i) = setTargetBit t i := by
  refine Nat.eq_of_testBit_eq fun k => ?_
  by_cases hk : k = t
  · subst hk; rw [testBit_setTargetBit_self, testBit_setTargetBit_self]
  · rw [testBit_setTargetBit_ne t _ k hk, testBit_setTargetBit_ne t _ k hk,
      testBit_clearTargetBit_ne t i k hk]

theorem setTargetBit_ne_self {t i : ℕ} (h : i.testBit t = false) : setTargetBit t i ≠ i := by
  intro heq
  have := testBit_setTargetBit_self t i
  rw [heq, h] at this
  exact Bool.false_ne_true this

theorem setTargetBit_lt {n t i : ℕ} (ht : t < n) (hi : i < 2 ^ n) :
    setTargetBit t i < 2 ^ n := by
  have hm : 2 ^ t < 2 ^ n := Nat.pow_lt_pow_right one_lt_two ht
  simpa [setTargetBit, one_shiftLeft_eq] using Nat.or_lt_two_pow hi hm

theorem clearTargetBit_lt {n t i : ℕ} (ht : t < n) (hi : i < 2 ^ n) :
    clearTargetBit t i < 2 ^ n := by
  have hm : 2 ^ t < 2 ^ n := Nat.pow_lt_pow_right one_lt_two ht
  have hor : i ||| 2 ^ t < 2 ^ n := Nat.or_lt_two_pow hi hm
  simpa [clearTargetBit, one_shiftLeft_eq] using Nat.xor_lt_two_pow hor hm

theorem lt_of_clearTargetBit_lt {n t i : ℕ} (ht : t < n)
    (h : clearTargetBit t i < 2 ^ n) : i < 2 ^ n := by
  by_contra hge
  push_neg at hge
  obtain ⟨j, hj, hbit⟩ := Nat.ge_two_pow_implies_high_bit_true hge
  have hjt : j ≠ t := by omega
  have hcb : (clearTargetBit t i).testBit j = true := by
    rw [testBit_clearTargetBit_ne t i j hjt]; exact hbit
  have hlt : clearTargetBit t i < 2 ^ j :=
    lt_of_lt_of_le h (Nat.pow_le_pow_right (by norm_num) hj)
  rw [Nat.testBit_eq_false_of_lt hlt] at hcb
  exact Bool.false_ne_true hcb

theorem land_shift_eq_zero_iff (t i : ℕ) :
    (i &&& (1 <<< t) = 0) ↔ i.testBit t = false := by
  rw [one_shiftLeft_eq]
  constructor
  · intro h
    by_contra hb
    have hb' : i.testBit t = true := Bool.not_eq_false _ |>.mp hb
    have : (i &&& 2 ^ t).testBit t = true := by
      rw [Nat.testBit_land, hb', Nat.testBit_two_pow_self]
      rfl
    rw [h] at this
    simp [Nat.zero_testBit] at this
  · intro h
    refine Nat.eq_of_testBit_eq fun k => ?_
    rw [Nat.testBit_land, Nat.zero_testBit]
    by_cases hk : k = t
    · subst hk; rw [h]; rfl
    · rw [Nat.testBit_two_pow_of_ne (Ne.symm hk)]
      simp

theorem clearTargetBit_eq_pair {t j i : ℕ} (_hi : i.testBit t = false)
    (h : clearTargetBit t j = i) : j = i ∨ j = setTargetBit t i := by
  by_cases hj : j.testBit t
  · right
    have : setTargetBit t (clearTargetBit t j) = setTargetBit t j :=
      setTargetBit_clearTargetBit t j
    rw [h, setTargetBit_of_testBit_true hj] at this
    exact this.symm
  · left
    rw [← h, clearTargetBit_of_testBit_false (Bool.eq_false_iff.mpr hj)]

/-! ## The gate-application loop (`QuantumCircuit::apply_gate`)

The source allocates `new_state` full of zeros, then for every `i` in `0..n`
(with `n = state.len() = 2^n_qubits`) skips indices whose target bit is set,
and otherwise forms the pair `(state[i], state[i1])` with `i1 = i | (1 << target)`,
multiplies it by the gate's 2×2 matrix (`gates.rs::apply_matrix`:
`result = matrix * [s0, s1]`), and writes the two components to `new_state[i]`
and `new_state[i1]`.  Every catalog gate's `apply` is exactly
`apply_matrix(self.matrix(), state)`, so the loop is parameterized here by the
gate's 2×2 matrix. -/

/-- One iteration of the `apply_gate` loop body, acting on the array `ns` being
built, reading the pre-call state `s`. -/
noncomputable def applyGateStep (g : Matrix (Fin 2) (Fin 2) ℂ) (t : ℕ) (s : QState)
    (ns : QState) (i : ℕ) : QState :=
  if i &&& (1 <<< t) ≠ 0 then ns
  else
    Function.update
      (Function.update ns i (g 0 0 * s i + g 0 1 * s (setTargetBit t i)))
      (setTargetBit t i) (g 1 0 * s i + g 1 1 * s (setTargetBit t i))

/-- Embedding of `QuantumCircuit::apply_gate`'s state rewrite (the bounds check
is modelled separately in `applyGateChecked`): fold the loop body over
`0..2^n` starting from the freshly allocated all-zero array. -/
noncomputable def applyGate (n : ℕ) (g : Matrix (Fin 2) (Fin 2) ℂ) (t : ℕ)
    (s : QState) : QState :=
  (List.range (2 ^ n)).foldl (applyGateStep g t s) (fun _ => 0)

/-- Value the `apply_gate` loop leaves at index `j`: the gate's 2×2 matrix applied
to the pair of amplitudes that differ from `j` only in the target bit. -/
noncomputable def gatePointwise (g : Matrix (Fin 2) (Fin 2) ℂ) (t : ℕ) (s : QState)
    (j : ℕ) : ℂ :=
  if j &&& (1 <<< t) = 0 then g 0 0 * s j + g 0 1 * s (setTargetBit t j)
  else g 1 0 * s (clearTargetBit t j) + g 1 1 * s j

theorem applyGate_fold_eval (g : Matrix (Fin 2) (Fin 2) ℂ) (t : ℕ) (s : QState)
    (K : ℕ) (j : ℕ) :
    ((List.range K).foldl (applyGateStep g t s) (fun _ => 0)) j
      = if clearTargetBit t j < K then gatePointwise g t s j else 0 := by
  induction K with
  | zero => simp
  | succ K ih =>
    rw [List.range_succ, List.foldl_append]
    simp only [List.foldl_cons, List.foldl_nil]
    set u := (List.range K).foldl (applyGateStep g t s) (fun _ => 0) with hu
    by_cases hK : K.testBit t
    · -- skipped iteration: the target bit of K is set
      have hskip : applyGateStep g t s u K = u := by
        have : K &&& (1 <<< t) ≠ 0 := by
          rw [Ne, land_shift_eq_zero_iff]
          simp [hK]
        simp [applyGateStep, this]
      rw [hskip, ih]
      have hne : clearTargetBit t j ≠ K := by
        intro h
        have := testBit_clearTargetBit_self t j
        rw [h, hK] at this
        exact Bool.false_ne_true this.symm
      by_cases hlt : clearTargetBit t j < K
      · rw [if_pos hlt, if_pos (Nat.lt_succ_of_lt hlt)]
      · rw [if_neg hlt, if_neg (by omega)]
    · -- active iteration: writes at K and at setTargetBit t K
      have hKf : K.testBit t = false := Bool.eq_false_iff.mpr hK
      have hcond : ¬ (K &&& (1 <<< t) ≠ 0) := by
        rw [not_not, land_shift_eq_zero_iff]
        exact hKf
      have hKne : setTargetBit t K ≠ K := setTargetBit_ne_self hKf
      rw [show applyGateStep g t s u K =
          Function.update
            (Function.update u K (g 0 0 * s K + g 0 1 * s (setTargetBit t K)))
            (setTargetBit t K) (g 1 0 * s K + g 1 1 * s (setTargetBit t K)) by
        simp [applyGateStep, hcond]]
      by_cases hj1 : j = setTargetBit t K
      · subst hj1
        rw [Function.update_same]
        have hcl : clearTargetBit t (setTargetBit t K) = K := by
          rw [clearTargetBit_setTargetBit, clearTargetBit_of_testBit_false hKf]
        rw [hcl, if_pos (Nat.lt_succ_self K)]
        have hbit : (setTargetBit t K) &&& (1 <<< t) ≠ 0 := by
          rw [Ne, land_shift_eq_zero_iff]
          simp [testBit_setTargetBit_self]
        rw [gatePointwise, if_neg (by simpa using hbit), hcl]
      · rw [Function.update_noteq hj1]
        by_cases hj0 : j = K
        · subst hj0
          rw [Function.update_same]
          have hcl : clearTargetBit t j = j := clearTargetBit_of_testBit_false hKf
          rw [hcl, if_pos (Nat.lt_succ_self j)]
          rw [gatePointwise, if_pos (land_shift_eq_zero_iff t j |>.mpr hKf)]
        · rw [Function.update_noteq hj0, ih]
          have hne : clearTargetBit t j ≠ K := by
            intro h
            rcases clearTargetBit_eq_pair hKf h with h1 | h1
            · exact hj0 h1
            · exact hj1 h1
          by_cases hlt : clearTargetBit t j < K
          · rw [if_pos hlt, if_pos (Nat.lt_succ_of_lt hlt)]
          · rw [if_neg hlt, if_neg (by omega)]

/-- Closed form of `apply_gate`: index `j < 2^n` receives the matrix-pair value,
indices past the array stay zero. -/
theorem applyGate_eval {n t : ℕ} (ht : t < n) (g : Matrix (Fin 2) (Fin 2) ℂ)
    (s : QState) (j : ℕ) :
    applyGate n g t s j = if j < 2 ^ n then gatePointwise g t s j else 0 := by
  rw [applyGate, applyGate_fold_eval]
  by_cases hj : j < 2 ^ n
  · rw [if_pos (clearTargetBit_lt ht hj), if_pos hj]
  · rw [if_neg (fun h => hj (lt_of_clearTargetBit_lt ht h)), if_neg hj]

theorem setTargetBit_idem (t i : ℕ) :
    setTargetBit t (setTargetBit t i) = setTargetBit t i := by
  simp [setTargetBit, Nat.lor_assoc]

theorem clearTargetBit_eq_setTargetBit_xor (t i : ℕ) :
    clearTargetBit t i = setTargetBit t i ^^^ (1 <<< t) := rfl

theorem setTargetBit_eq_pair {t a b : ℕ} (h : setTargetBit t a = setTargetBit t b) :
    b = clearTargetBit t a ∨ b = setTargetBit t a := by
  by_cases hb : b.testBit t
  · right
    rw [← setTargetBit_of_testBit_true hb, ← h]
  · left
    have : clearTargetBit t b = b := clearTargetBit_of_testBit_false (Bool.eq_false_iff.mpr hb)
    rw [← this, clearTargetBit_eq_setTargetBit_xor, clearTargetBit_eq_setTargetBit_xor, h]

/-! ## The tensor-product specification of a single-qubit gate

Modelled from the spec: applying a gate `G` to qubit `t` of an `n`-qubit state is
the `2^n × 2^n` matrix `I ⊗ … ⊗ G ⊗ … ⊗ I` (with `G` in the factor of qubit `t`),
whose entry at `(i, j)` is `G[bit t of i][bit t of j]` when `i` and `j` agree on
every bit other than `t`, and `0` otherwise.  Agreement away from bit `t` is
encoded as `setTargetBit t i = setTargetBit t j`; `tensorEntry_agree_iff` checks
that this is literally "all bits other than `t` coincide". -/

/-- Bit `t` of a basis index, as a row/column index of the 2×2 gate matrix. -/
def bitIdx (t i : ℕ) : Fin 2 := if i.testBit t then 1 else 0

/-- Modelled from the spec: the matrix `I ⊗ … ⊗ Gate ⊗ … ⊗ I` acting on the full
`2^n`-dimensional state space, with the gate in the factor of qubit `t`. -/
def tensorSingleGate (n t : ℕ) (g : Matrix (Fin 2) (Fin 2) ℂ) :
    Matrix (Fin (2 ^ n)) (Fin (2 ^ n)) ℂ :=
  fun i j =>
    if setTargetBit t i.val = setTargetBit t j.val
    then g (bitIdx t i.val) (bitIdx t j.val) else 0

/-- Sanity of the encoding used in `tensorSingleGate`: two indices are paired by
the tensor factor at qubit `t` precisely when all their other bits agree. -/
theorem tensorEntry_agree_iff (t a b : ℕ) :
    setTargetBit t a = setTargetBit t b ↔ ∀ k, k ≠ t → a.testBit k = b.testBit k := by
  constructor
  · intro h k hk
    rw [← testBit_setTargetBit_ne t a k hk, h, testBit_setTargetBit_ne t b k hk]
  · intro h
    refine Nat.eq_of_testBit_eq fun k => ?_
    by_cases hk : k = t
    · subst hk; rw [testBit_setTargetBit_self, testBit_setTargetBit_self]
    · rw [testBit_setTargetBit_ne t a k hk, testBit_setTargetBit_ne t b k hk]
      exact h k hk

/-- C1: for every circuit with `n` qubits, every 2×2 gate matrix, and every
`target < n`, `apply_gate` (i) replaces, for every basis index `i` with target
bit 0 and `i1 = i | (1 << target)`, the pair `(amplitude[i], amplitude[i1])` by
the gate's 2×2 matrix applied to that pair, and (ii) equals the tensor product
`I ⊗ … ⊗ Gate ⊗ … ⊗ I` applied to the full state vector. -/
theorem C1_apply_gate_is_tensor_product {n t : ℕ} (ht : t < n)
    (g : Matrix (Fin 2) (Fin 2) ℂ) (s : QState) :
    (∀ i, i < 2 ^ n → i.testBit t = false →
      applyGate n g t s i = g 0 0 * s i + g 0 1 * s (setTargetBit t i) ∧
      applyGate n g t s (setTargetBit t i)
        = g 1 0 * s i + g 1 1 * s (setTargetBit t i)) ∧
    (∀ i : Fin (2 ^ n),
      applyGate n g t s i.val
        = (tensorSingleGate n t g).mulVec (fun j : Fin (2 ^ n) => s j.val) i) := by
  constructor
  · intro i hi hbit
    constructor
    · rw [applyGate_eval ht, if_pos hi, gatePointwise,
        if_pos ((land_shift_eq_zero_iff t i).mpr hbit)]
    · rw [applyGate_eval ht, if_pos (setTargetBit_lt ht hi), gatePointwise,
        if_neg (by
          rw [land_shift_eq_zero_iff]
          simp [testBit_setTargetBit_self]),
        clearTargetBit_setTargetBit, clearTargetBit_of_testBit_false hbit]
  · intro i
    have hmv : (tensorSingleGate n t g).mulVec (fun j : Fin (2 ^ n) => s j.val) i
        = ∑ j : Fin (2 ^ n), tensorSingleGate n t g i j * s j.val := by
      simp [Matrix.mulVec, Matrix.dotProduct]
    set i0 : Fin (2 ^ n) := ⟨clearTargetBit t i.val, clearTargetBit_lt ht i.isLt⟩
    set i1 : Fin (2 ^ n) := ⟨setTargetBit t i.val, setTargetBit_lt ht i.isLt⟩
    have hne : i0 ≠ i1 := by
      refine Fin.ne_of_val_ne ?_
      intro h
      have h0 := testBit_clearTargetBit_self t i.val
      have h1 := testBit_setTargetBit_self t i.val
      rw [show (i0 : ℕ) = clearTargetBit t i.val from rfl] at h
      rw [h] at h0
      rw [h1] at h0
      exact Bool.false_ne_true h0.symm
    have hzero : ∀ j : Fin (2 ^ n), j ∈ Finset.univ → j ∉ ({i0, i1} : Finset (Fin (2 ^ n))) →
        tensorSingleGate n t g i j * s j.val = 0 := by
      intro j _ hj
      rw [Finset.mem_insert, Finset.mem_singleton] at hj
      push_neg at hj
      rw [tensorSingleGate]
      by_cases hag : setTargetBit t i.val = setTargetBit t j.val
      · exfalso
        rcases setTargetBit_eq_pair hag with h | h
        · exact hj.1 (Fin.ext h)
        · exact hj.2 (Fin.ext h)
      · rw [if_neg hag, zero_mul]
    have hsum : ∑ j : Fin (2 ^ n), tensorSingleGate n t g i j * s j.val
        = tensorSingleGate n t g i i0 * s i0.val
          + tensorSingleGate n t g i i1 * s i1.val := by
      rw [← Finset.sum_subset (Finset.subset_univ ({i0, i1} : Finset (Fin (2 ^ n)))) hzero,
        Finset.sum_pair hne]
    have hent0 : tensorSingleGate n t g i i0 = g (bitIdx t i.val) 0 := by
      rw [tensorSingleGate]
      rw [if_pos (by
        show setTargetBit t i.val = setTargetBit t (clearTargetBit t i.val)
        rw [setTargetBit_clearTargetBit])]
      congr 1
      rw [bitIdx]
      rw [show (i0 : Fin (2^n)).val = clearTargetBit t i.val from rfl,
        testBit_clearTargetBit_self]
      rfl
    have hent1 : tensorSingleGate n t g i i1 = g (bitIdx t i.val) 1 := by
      rw [tensorSingleGate]
      rw [if_pos (by
        show setTargetBit t i.val = setTargetBit t (setTargetBit t i.val)
        rw [setTargetBit_idem])]
      congr 1
      rw [bitIdx]
      rw [show (i1 : Fin (2^n)).val = setTargetBit t i.val from rfl,
        testBit_setTargetBit_self]
      rfl
    rw [hmv, hsum, hent0, hent1, applyGate_eval ht, if_pos i.isLt, gatePointwise]
    by_cases hbit : i.val.testBit t
    · rw [if_neg (by
        rw [land_shift_eq_zero_iff]
        simp [hbit])]
      have h0 : (i0 : Fin (2^n)).val = clearTargetBit t i.val := rfl
      have h1 : (i1 : Fin (2^n)).val = i.val := by
        show setTargetBit t i.val = i.val
        exact setTargetBit_of_testBit_true hbit
      rw [h0, h1, bitIdx, if_pos hbit]
    · rw [if_pos ((land_shift_eq_zero_iff t i.val).mpr (Bool.eq_false_iff.mpr hbit))]
      have h0 : (i0 : Fin (2^n)).val = i.val := by
        show clearTargetBit t i.val = i.val
        exact clearTargetBit_of_testBit_false (Bool.eq_false_iff.mpr hbit)
      have h1 : (i1 : Fin (2^n)).val = setTargetBit t i.val := rfl
      rw [h0, h1, bitIdx, if_neg (by simp [hbit])]

/-- Concrete instance of C1 at `n = 1`, `t = 0`, the gate `[[0,1],[1,0]]`, and the
basis state with amplitude 1 at index 0. -/
theorem C1_apply_gate_is_tensor_product_witness :
    (∀ i, i < 2 ^ 1 → i.testBit 0 = false →
      applyGate 1 !![0, 1; 1, 0] 0 (fun j => if j = 0 then 1 else 0) i
        = !![(0 : ℂ), 1; 1, 0] 0 0 * (fun j : ℕ => if j = 0 then (1 : ℂ) else 0) i
          + !![(0 : ℂ), 1; 1, 0] 0 1
            * (fun j : ℕ => if j = 0 then (1 : ℂ) else 0) (setTargetBit 0 i) ∧
      applyGate 1 !![0, 1; 1, 0] 0 (fun j => if j = 0 then 1 else 0) (setTargetBit 0 i)
        = !![(0 : ℂ), 1; 1, 0] 1 0 * (fun j : ℕ => if j = 0 then (1 : ℂ) else 0) i
          + !![(0 : ℂ), 1; 1, 0] 1 1
            * (fun j : ℕ => if j = 0 then (1 : ℂ) else 0) (setTargetBit 0 i)) ∧
    (∀ i : Fin (2 ^ 1),
      applyGate 1 !![0, 1; 1, 0] 0 (fun j => if j = 0 then 1 else 0) i.val
        = (tensorSingleGate 1 0 !![0, 1; 1, 0]).mulVec
            (fun j : Fin (2 ^ 1) => if (j : ℕ) = 0 then 1 else 0) i) :=
  C1_apply_gate_is_tensor_product (by decide) !![0, 1; 1, 0] (fun j => if j = 0 then 1 else 0)

theorem clearTargetBit_le (t i : ℕ) : clearTargetBit t i ≤ i :=
  Nat.le_of_testBit fun k h => by
    by_cases hk : k = t
    · subst hk; rw [testBit_clearTargetBit_self] at h; exact absurd h (by simp)
    · rw [testBit_clearTargetBit_ne t i k hk] at h; exact h

/-! ## The controlled-gate loop (`QuantumCircuit::apply_controlled_gate`)

The source starts from a clone of the current state and, for every `i` in
`0..2^n` whose `control` bit is 1, overwrites the entries at
`i & !(1 << target)` and `i | (1 << target)` with the gate's 2×2 matrix applied
to the pair of those two pre-call amplitudes.  Each target-bit pair inside the
control-set half is visited twice (once per member), writing the same two values
both times. -/

/-- One iteration of the `apply_controlled_gate` loop body. -/
noncomputable def applyControlledGateStep (g : Matrix (Fin 2) (Fin 2) ℂ)
    (control target : ℕ) (s : QState) (ns : QState) (i : ℕ) : QState :=
  if i &&& (1 <<< control) ≠ 0 then
    Function.update
      (Function.update ns (clearTargetBit target i)
        (g 0 0 * s (clearTargetBit target i) + g 0 1 * s (setTargetBit target i)))
      (setTargetBit target i)
      (g 1 0 * s (clearTargetBit target i) + g 1 1 * s (setTargetBit target i))
  else ns

/-- Embedding of `QuantumCircuit::apply_controlled_gate`'s state rewrite: fold the
loop body over `0..2^n` starting from the cloned current state. -/
noncomputable def applyControlledGate (n : ℕ) (g : Matrix (Fin 2) (Fin 2) ℂ)
    (control target : ℕ) (s : QState) : QState :=
  (List.range (2 ^ n)).foldl (applyControlledGateStep g control target s) s

theorem applyControlledGate_fold_eval (g : Matrix (Fin 2) (Fin 2) ℂ) {c t : ℕ}
    (hct : c ≠ t) (s : QState) (K j : ℕ) :
    ((List.range K).foldl (applyControlledGateStep g c t s) s) j
      = if j.testBit c = true ∧ clearTargetBit t j < K
        then gatePointwise g t s j else s j := by
  induction K with
  | zero => simp
  | succ K ih =>
    rw [List.range_succ, List.foldl_append]
    simp only [List.foldl_cons, List.foldl_nil]
    set u := (List.range K).foldl (applyControlledGateStep g c t s) s with hu
    by_cases hKc : K.testBit c
    · -- active iteration: the control bit of K is set
      have hcond : K &&& (1 <<< c) ≠ 0 := by
        rw [Ne, land_shift_eq_zero_iff]
        simp [hKc]
      have hi0 : (clearTargetBit t K).testBit t = false := testBit_clearTargetBit_self t K
      have hne : setTargetBit t K ≠ clearTargetBit t K := by
        rw [← setTargetBit_clearTargetBit t K]
        exact setTargetBit_ne_self hi0
      rw [show applyControlledGateStep g c t s u K =
          Function.update
            (Function.update u (clearTargetBit t K)
              (g 0 0 * s (clearTargetBit t K) + g 0 1 * s (setTargetBit t K)))
            (setTargetBit t K)
            (g 1 0 * s (clearTargetBit t K) + g 1 1 * s (setTargetBit t K)) by
        simp [applyControlledGateStep, hcond]]
      by_cases hj1 : j = setTargetBit t K
      · subst hj1
        rw [Function.update_same]
        have hc1 : (setTargetBit t K).testBit c = true := by
          rw [testBit_setTargetBit_ne t K c hct]; exact hKc
        have hcl : clearTargetBit t (setTargetBit t K) = clearTargetBit t K :=
          clearTargetBit_setTargetBit t K
        rw [if_pos ⟨hc1, by rw [hcl]; exact Nat.lt_succ_of_le (clearTargetBit_le t K)⟩]
        rw [gatePointwise, if_neg (by
          rw [land_shift_eq_zero_iff]
          simp [testBit_setTargetBit_self]), hcl]
      · rw [Function.update_noteq hj1]
        by_cases hj0 : j = clearTargetBit t K
        · subst hj0
          rw [Function.update_same]
          have hc0 : (clearTargetBit t K).testBit c = true := by
            rw [testBit_clearTargetBit_ne t K c hct]; exact hKc
          have hcl : clearTargetBit t (clearTargetBit t K) = clearTargetBit t K :=
            clearTargetBit_of_testBit_false hi0
          rw [if_pos ⟨hc0, by rw [hcl]; exact Nat.lt_succ_of_le (clearTargetBit_le t K)⟩]
          rw [gatePointwise, if_pos ((land_shift_eq_zero_iff t _).mpr hi0),
            setTargetBit_clearTargetBit]
        · rw [Function.update_noteq hj0, ih]
          have hne' : ¬ (j.testBit c = true ∧ clearTargetBit t j = K) := by
            rintro ⟨-, hclj⟩
            have hKt : K.testBit t = false := by
              have := testBit_clearTargetBit_self t j
              rw [hclj] at this
              exact this
            have hK0 : clearTargetBit t K = K := clearTargetBit_of_testBit_false hKt
            rcases clearTargetBit_eq_pair hKt hclj with h | h
            · exact hj0 (h.trans hK0.symm)
            · exact hj1 h
          by_cases hcnd : j.testBit c = true ∧ clearTargetBit t j < K
          · rw [if_pos hcnd, if_pos ⟨hcnd.1, Nat.lt_succ_of_lt hcnd.2⟩]
          · rw [if_neg hcnd, if_neg (by
              rintro ⟨h1, h2⟩
              rcases Nat.lt_succ_iff_lt_or_eq.mp h2 with h2 | h2
              · exact hcnd ⟨h1, h2⟩
              · exact hne' ⟨h1, h2⟩)]
    · -- skipped iteration: the control bit of K is clear
      have hskip : applyControlledGateStep g c t s u K = u := by
        have : ¬ K &&& (1 <<< c) ≠ 0 := by
          rw [not_not, land_shift_eq_zero_iff]
          exact Bool.eq_false_iff.mpr hKc
        simp [applyControlledGateStep, this]
      rw [hskip, ih]
      have hne' : ¬ (j.testBit c = true ∧ clearTargetBit t j = K) := by
        rintro ⟨h1, h2⟩
        have : (clearTargetBit t j).testBit c = true := by
          rw [testBit_clearTargetBit_ne t j c hct]; exact h1
        rw [h2] at this
        exact hKc (by rw [this])
      by_cases hcnd : j.testBit c = true ∧ clearTargetBit t j < K
      · rw [if_pos hcnd, if_pos ⟨hcnd.1, Nat.lt_succ_of_lt hcnd.2⟩]
      · rw [if_neg hcnd, if_neg (by
          rintro ⟨h1, h2⟩
          rcases Nat.lt_succ_iff_lt_or_eq.mp h2 with h2 | h2
          · exact hcnd ⟨h1, h2⟩
          · exact hne' ⟨h1, h2⟩)]

/-- C2: `apply_controlled_gate(gate, control, target)` applies the gate's 2×2
transform to the amplitude pair `(amplitude[i & !(1<<target)],
amplitude[i | (1<<target)])` for every basis index `i` whose control bit is 1,
reading from the pre-call state, and leaves every amplitude whose basis index has
control bit 0 exactly unchanged. -/
theorem C2_apply_controlled_gate_pairs {n c t : ℕ} (_hc : c < n) (ht : t < n)
    (hct : c ≠ t) (g : Matrix (Fin 2) (Fin 2) ℂ) (s : QState) :
    (∀ i, i < 2 ^ n → i.testBit c = true →
      applyControlledGate n g c t s (clearTargetBit t i)
        = g 0 0 * s (clearTargetBit t i) + g 0 1 * s (setTargetBit t i) ∧
      applyControlledGate n g c t s (setTargetBit t i)
        = g 1 0 * s (clearTargetBit t i) + g 1 1 * s (setTargetBit t i)) ∧
    (∀ i, i < 2 ^ n → i.testBit c = false →
      applyControlledGate n g c t s i = s i) := by
  constructor
  · intro i hi hic
    have hi0t : (clearTargetBit t i).testBit t = false := testBit_clearTargetBit_self t i
    have hi0c : (clearTargetBit t i).testBit c = true := by
      rw [testBit_clearTargetBit_ne t i c hct]; exact hic
    have hi1c : (setTargetBit t i).testBit c = true := by
      rw [testBit_setTargetBit_ne t i c hct]; exact hic
    have hcl0 : clearTargetBit t (clearTargetBit t i) = clearTargetBit t i :=
      clearTargetBit_of_testBit_false hi0t
    have hcl1 : clearTargetBit t (setTargetBit t i) = clearTargetBit t i :=
      clearTargetBit_setTargetBit t i
    have hlt : clearTargetBit t i < 2 ^ n := clearTargetBit_lt ht hi
    constructor
    · rw [applyControlledGate, applyControlledGate_fold_eval g hct,
        if_pos ⟨hi0c, by rw [hcl0]; exact hlt⟩, gatePointwise,
        if_pos ((land_shift_eq_zero_iff t _).mpr hi0t), setTargetBit_clearTargetBit]
    · rw [applyControlledGate, applyControlledGate_fold_eval g hct,
        if_pos ⟨hi1c, by rw [hcl1]; exact hlt⟩, gatePointwise,
        if_neg (by
          rw [land_shift_eq_zero_iff]
          simp [testBit_setTargetBit_self]), hcl1]
  · intro i hi hic
    rw [applyControlledGate, applyControlledGate_fold_eval g hct,
      if_neg (by rintro ⟨h1, -⟩; rw [hic] at h1; exact Bool.false_ne_true h1)]

/-- Concrete instance of C2 at `n = 2`, `control = 0`, `target = 1`, the gate
`[[0,1],[1,0]]`, and the basis state with amplitude 1 at index 1. -/
theorem C2_apply_controlled_gate_pairs_witness :
    (∀ i, i < 2 ^ 2 → i.testBit 0 = true →
      applyControlledGate 2 !![0, 1; 1, 0] 0 1 (fun j => if j = 1 then 1 else 0)
          (clearTargetBit 1 i)
        = !![(0 : ℂ), 1; 1, 0] 0 0
            * (fun j : ℕ => if j = 1 then (1 : ℂ) else 0) (clearTargetBit 1 i)
          + !![(0 : ℂ), 1; 1, 0] 0 1
            * (fun j : ℕ => if j = 1 then (1 : ℂ) else 0) (setTargetBit 1 i) ∧
      applyControlledGate 2 !![0, 1; 1, 0] 0 1 (fun j => if j = 1 then 1 else 0)
          (setTargetBit 1 i)
        = !![(0 : ℂ), 1; 1, 0] 1 0
            * (fun j : ℕ => if j = 1 then (1 : ℂ) else 0) (clearTargetBit 1 i)
          + !![(0 : ℂ), 1; 1, 0] 1 1
            * (fun j : ℕ => if j = 1 then (1 : ℂ) else 0) (setTargetBit 1 i)) ∧
    (∀ i, i < 2 ^ 2 → i.testBit 0 = false →
      applyControlledGate 2 !![0, 1; 1, 0] 0 1 (fun j => if j = 1 then 1 else 0) i
        = (fun j : ℕ => if j = 1 then (1 : ℂ) else 0) i) :=
  C2_apply_controlled_gate_pairs (by decide) (by decide) (by decide)
    !![0, 1; 1, 0] (fun j => if j = 1 then 1 else 0)

/-! ## Measurement (`QuantumCircuit::measure`)

The source first accumulates `prob_one += state[i].norm_sqr()` over all `i` whose
target bit is set, draws `random ∈ [0,1)`, sets `result = random < prob_one`,
computes `norm = sqrt(prob_one)` if `result` else `sqrt(1 - prob_one)`, and
builds the collapsed state: each index whose target bit agrees with `result`
gets `state[i] / Complex::new(norm, 0.0)`, the rest stay zero.  The uniform
sample is passed here as the explicit parameter `r`. -/

/-- Accumulation loop for `prob_one`: the Born-rule marginal of outcome 1. -/
noncomputable def probOne (n t : ℕ) (s : QState) : ℝ :=
  (List.range (2 ^ n)).foldl
    (fun acc i => if i &&& (1 <<< t) ≠ 0 then acc + Complex.normSq (s i) else acc) 0

open Classical in
/-- Rust `let result = random < prob_one;` with the drawn sample `r`. -/
noncomputable def measureResult (n t : ℕ) (r : ℝ) (s : QState) : Bool :=
  if r < probOne n t s then true else false

/-- Rust `let norm = if result { prob_one.sqrt() } else { (1.0 - prob_one).sqrt() };`. -/
noncomputable def measureNorm (n t : ℕ) (r : ℝ) (s : QState) : ℝ :=
  if measureResult n t r s = true then Real.sqrt (probOne n t s)
  else Real.sqrt (1 - probOne n t s)

/-- Collapse loop of `measure`: starting from a zero array, each index whose
target bit equals the drawn result receives the old amplitude divided by
`Complex::new(norm, 0.0)`. -/
noncomputable def measureCollapse (n t : ℕ) (r : ℝ) (s : QState) : QState :=
  (List.range (2 ^ n)).foldl
    (fun ns i =>
      if (i &&& (1 <<< t) != 0) = measureResult n t r s then
        Function.update ns i (s i / cplx (measureNorm n t r s) 0)
      else ns)
    (fun _ => 0)

/-- Embedding of `QuantumCircuit::measure`'s successful path: the boolean outcome
together with the collapsed state. -/
noncomputable def measure (n t : ℕ) (r : ℝ) (s : QState) : Bool × QState :=
  (measureResult n t r s, measureCollapse n t r s)

theorem bne_shift_eq_testBit (t i : ℕ) : (i &&& (1 <<< t) != 0) = i.testBit t := by
  cases hb : i.testBit t
  · have h0 : i &&& (1 <<< t) = 0 := (land_shift_eq_zero_iff t i).mpr hb
    simp [h0]
  · have h0 : ¬ (i &&& (1 <<< t) = 0) := by
      rw [land_shift_eq_zero_iff]
      simp [hb]
    simp [bne_iff_ne, h0]

theorem foldl_cond_sum (f : ℕ → ℝ) (p : ℕ → Bool) (K : ℕ) (a : ℝ) :
    (List.range K).foldl (fun acc i => if p i = true then acc + f i else acc) a
      = a + ∑ i ∈ (Finset.range K).filter (fun i => p i = true), f i := by
  induction K generalizing a with
  | zero => simp
  | succ K ih =>
    rw [List.range_succ, List.foldl_append]
    simp only [List.foldl_cons, List.foldl_nil]
    rw [ih, Finset.range_succ, Finset.filter_insert]
    by_cases hp : p K = true
    · rw [if_pos hp, if_pos hp,
        Finset.sum_insert (fun hmem => by
          have := Finset.mem_filter.mp hmem
          exact absurd (Finset.mem_range.mp this.1) (lt_irrefl K))]
      ring
    · rw [if_neg hp, if_neg hp]

/-- Evaluation of the `prob_one` loop as the Born-rule sum. -/
theorem probOne_eval (n t : ℕ) (s : QState) :
    probOne n t s
      = ∑ i ∈ (Finset.range (2 ^ n)).filter (fun i => i.testBit t = true),
          Complex.normSq (s i) := by
  rw [probOne]
  have : (fun (acc : ℝ) i => if i &&& (1 <<< t) ≠ 0 then acc + Complex.normSq (s i) else acc)
      = fun acc i => if (i &&& (1 <<< t) != 0) = true then acc + Complex.normSq (s i) else acc := by
    funext acc i
    by_cases h : i &&& (1 <<< t) = 0
    · simp [h]
    · simp [h, bne_iff_ne]
  rw [this]
  have := foldl_cond_sum (fun i => Complex.normSq (s i)) (fun i => i &&& (1 <<< t) != 0)
    (2 ^ n) 0
  rw [this, zero_add]
  refine Finset.sum_congr ?_ (fun _ _ => rfl)
  apply Finset.filter_congr
  intro i _
  rw [bne_shift_eq_testBit]

/-- Evaluation of the collapse loop: a single write per index. -/
theorem measureCollapse_eval (n t : ℕ) (r : ℝ) (s : QState) (j : ℕ) :
    measureCollapse n t r s j
      = if j < 2 ^ n ∧ j.testBit t = measureResult n t r s
        then s j / cplx (measureNorm n t r s) 0 else 0 := by
  rw [measureCollapse]
  have main : ∀ K, ((List.range K).foldl
      (fun ns i =>
        if (i &&& (1 <<< t) != 0) = measureResult n t r s then
          Function.update ns i (s i / cplx (measureNorm n t r s) 0)
        else ns)
      (fun _ => 0)) j
      = if j < K ∧ j.testBit t = measureResult n t r s
        then s j / cplx (measureNorm n t r s) 0 else 0 := by
    intro K
    induction K with
    | zero => simp
    | succ K ih =>
      rw [List.range_succ, List.foldl_append]
      simp only [List.foldl_cons, List.foldl_nil]
      by_cases hcnd : (K &&& (1 <<< t) != 0) = measureResult n t r s
      · rw [if_pos hcnd]
        by_cases hj : j = K
        · subst hj
          rw [Function.update_same,
            if_pos ⟨Nat.lt_succ_self j, by rw [← bne_shift_eq_testBit]; exact hcnd⟩]
        · rw [Function.update_noteq hj, ih]
          by_cases hlt : j < K ∧ j.testBit t = measureResult n t r s
          · rw [if_pos hlt, if_pos ⟨Nat.lt_succ_of_lt hlt.1, hlt.2⟩]
          · rw [if_neg hlt, if_neg (by
              rintro ⟨h1, h2⟩
              exact hlt ⟨by omega, h2⟩)]
      · rw [if_neg hcnd, ih]
        rw [bne_shift_eq_testBit] at hcnd
        by_cases hlt : j < K ∧ j.testBit t = measureResult n t r s
        · rw [if_pos hlt, if_pos ⟨Nat.lt_succ_of_lt hlt.1, hlt.2⟩]
        · rw [if_neg hlt, if_neg (by
            rintro ⟨h1, h2⟩
            rcases Nat.lt_succ_iff_lt_or_eq.mp h1 with h1 | h1
            · exact hlt ⟨h1, h2⟩
            · subst h1; exact hcnd h2)]
  exact main (2 ^ n)

/-- C3: `measure(target)` computes `p1` as the sum of `|amplitude_i|²` over basis
indices whose target bit is 1, returns the outcome `r < p1` for the drawn sample
`r`, and collapses the state: amplitudes whose target bit matches the outcome are
divided by `sqrt(p1)` (outcome true) or `sqrt(1-p1)` (outcome false), all others
become zero. -/
theorem C3_measure_born_rule_collapse {n t : ℕ} (_ht : t < n) (r : ℝ) (s : QState) :
    probOne n t s
      = ∑ i ∈ (Finset.range (2 ^ n)).filter (fun i => i.testBit t = true),
          Complex.normSq (s i) ∧
    ((measure n t r s).1 = true ↔
      r < ∑ i ∈ (Finset.range (2 ^ n)).filter (fun i => i.testBit t = true),
            Complex.normSq (s i)) ∧
    (∀ j, j < 2 ^ n →
      (measure n t r s).2 j
        = if j.testBit t = (measure n t r s).1
          then s j / cplx
            (if (measure n t r s).1 = true
             then Real.sqrt (∑ i ∈ (Finset.range (2 ^ n)).filter
                    (fun i => i.testBit t = true), Complex.normSq (s i))
             else Real.sqrt (1 - ∑ i ∈ (Finset.range (2 ^ n)).filter
                    (fun i => i.testBit t = true), Complex.normSq (s i))) 0
          else 0) := by
  have hp := probOne_eval n t s
  refine ⟨hp, ?_, ?_⟩
  · rw [← hp]
    show (measureResult n t r s = true ↔ r < probOne n t s)
    rw [measureResult]
    by_cases h : r < probOne n t s
    · simp [h]
    · simp [h]
  · intro j hj
    have hcol := measureCollapse_eval n t r s j
    rw [show (measure n t r s).2 = measureCollapse n t r s from rfl, hcol]
    rw [show (measure n t r s).1 = measureResult n t r s from rfl]
    rw [← hp, ← measureNorm]
    by_cases hc : j.testBit t = measureResult n t r s
    · rw [if_pos ⟨hj, hc⟩, if_pos hc]
    · rw [if_neg (fun h => hc h.2), if_neg hc]

/-- Concrete instance of C3 at `n = 1`, `t = 0`, `r = 1/2`, basis state `|0⟩`. -/
theorem C3_measure_born_rule_collapse_witness :
    probOne 1 0 (fun j => if j = 0 then 1 else 0)
      = ∑ i ∈ (Finset.range (2 ^ 1)).filter (fun i => i.testBit 0 = true),
          Complex.normSq ((fun j : ℕ => if j = 0 then (1 : ℂ) else 0) i) ∧
    ((measure 1 0 (1/2) (fun j => if j = 0 then 1 else 0)).1 = true ↔
      (1/2 : ℝ) < ∑ i ∈ (Finset.range (2 ^ 1)).filter (fun i => i.testBit 0 = true),
            Complex.normSq ((fun j : ℕ => if j = 0 then (1 : ℂ) else 0) i)) ∧
    (∀ j, j < 2 ^ 1 →
      (measure 1 0 (1/2) (fun j => if j = 0 then 1 else 0)).2 j
        = if j.testBit 0 = (measure 1 0 (1/2) (fun j => if j = 0 then 1 else 0)).1
          then (fun j : ℕ => if j = 0 then (1 : ℂ) else 0) j / cplx
            (if (measure 1 0 (1/2) (fun j => if j = 0 then 1 else 0)).1 = true
             then Real.sqrt (∑ i ∈ (Finset.range (2 ^ 1)).filter
                    (fun i => i.testBit 0 = true),
                    Complex.normSq ((fun j : ℕ => if j = 0 then (1 : ℂ) else 0) i))
             else Real.sqrt (1 - ∑ i ∈ (Finset.range (2 ^ 1)).filter
                    (fun i => i.testBit 0 = true),
                    Complex.normSq ((fun j : ℕ => if j = 0 then (1 : ℂ) else 0) i))) 0
          else 0) :=
  C3_measure_born_rule_collapse (by decide) (1/2) (fun j => if j = 0 then 1 else 0)

/-- C6: the divisor used during collapse is never zero: a true outcome forces
`p1 > r ≥ 0` and a false outcome forces `p1 ≤ r < 1`, so the square root taken is
of a strictly positive number; no NaN/Inf can enter the state vector. -/
theorem C6_measure_divisor_nonzero (n t : ℕ) (r : ℝ) (s : QState)
    (h0 : 0 ≤ r) (h1 : r < 1) :
    0 < measureNorm n t r s ∧ cplx (measureNorm n t r s) 0 ≠ 0 := by
  have hpos : 0 < measureNorm n t r s := by
    rw [measureNorm, measureResult]
    by_cases h : r < probOne n t s
    · rw [if_pos (by simp [h])]
      exact Real.sqrt_pos.mpr (lt_of_le_of_lt h0 h)
    · rw [if_neg (by simp [h])]
      push_neg at h
      exact Real.sqrt_pos.mpr (by linarith)
  refine ⟨hpos, ?_⟩
  intro hz
  have : measureNorm n t r s = 0 := by
    have := congrArg Complex.re hz
    simpa [cplx] using this
  exact absurd this (ne_of_gt hpos)

/-- Concrete instance of C6 at `n = 1`, `t = 0`, `r = 1/2`, basis state `|0⟩`. -/
theorem C6_measure_divisor_nonzero_witness :
    0 < measureNorm 1 0 (1/2) (fun j => if j = 0 then 1 else 0) ∧
    cplx (measureNorm 1 0 (1/2) (fun j => if j = 0 then 1 else 0)) 0 ≠ 0 :=
  C6_measure_divisor_nonzero 1 0 (1/2) (fun j => if j = 0 then 1 else 0)
    (by norm_num) (by norm_num)

/-! ## The gate catalog (`gates.rs`)

Each gate's `matrix()` builds a `Matrix2` row-major via `Matrix2::new(m00, m01,
m10, m11)`, with `Complex::new(re, im)` entries; `apply` is
`apply_matrix(self.matrix(), pair)`. -/

/-- Pauli-X matrix (`XGate::matrix`). -/
noncomputable def XGateM : Matrix (Fin 2) (Fin 2) ℂ :=
  !![cplx 0 0, cplx 1 0; cplx 1 0, cplx 0 0]

/-- Pauli-Y matrix (`YGate::matrix`). -/
noncomputable def YGateM : Matrix (Fin 2) (Fin 2) ℂ :=
  !![cplx 0 0, cplx 0 (-1); cplx 0 1, cplx 0 0]

/-- Pauli-Z matrix (`ZGate::matrix`). -/
noncomputable def ZGateM : Matrix (Fin 2) (Fin 2) ℂ :=
  !![cplx 1 0, cplx 0 0; cplx 0 0, cplx (-1) 0]

/-- Hadamard matrix (`HadamardGate::matrix`), with `sqrt_2_inv = 1.0 / 2.0.sqrt()`. -/
noncomputable def HadamardGateM : Matrix (Fin 2) (Fin 2) ℂ :=
  !![cplx (1 / Real.sqrt 2) 0, cplx (1 / Real.sqrt 2) 0;
     cplx (1 / Real.sqrt 2) 0, cplx (-(1 / Real.sqrt 2)) 0]

/-- Phase (S) matrix (`PhaseGate::matrix`). -/
noncomputable def PhaseGateM : Matrix (Fin 2) (Fin 2) ℂ :=
  !![cplx 1 0, cplx 0 0; cplx 0 0, cplx 0 1]

/-- T matrix (`TGate::matrix`), lower-right entry `(cos(π/4), sin(π/4))`. -/
noncomputable def TGateM : Matrix (Fin 2) (Fin 2) ℂ :=
  !![cplx 1 0, cplx 0 0;
     cplx 0 0, cplx (Real.cos (Real.pi / 4)) (Real.sin (Real.pi / 4))]

/-- Rotation matrix (`RotationGate::matrix`) for angle `theta`. -/
noncomputable def RotationGateM (theta : ℝ) : Matrix (Fin 2) (Fin 2) ℂ :=
  !![cplx (Real.cos theta) 0, cplx (-Real.sin theta) 0;
     cplx (Real.sin theta) 0, cplx (Real.cos theta) 0]

/-- Membership in the gate catalog of `gates.rs` (single-qubit gates). -/
inductive CatalogGate : Matrix (Fin 2) (Fin 2) ℂ → Prop
  | x : CatalogGate XGateM
  | y : CatalogGate YGateM
  | z : CatalogGate ZGateM
  | h : CatalogGate HadamardGateM
  | s : CatalogGate PhaseGateM
  | t : CatalogGate TGateM
  | rot (theta : ℝ) : CatalogGate (RotationGateM theta)

theorem catalog_unitary {g : Matrix (Fin 2) (Fin 2) ℂ} (hg : CatalogGate g) :
    g.conjTranspose * g = 1 := by
  have hs2 : Real.sqrt 2 * Real.sqrt 2 = 2 := Real.mul_self_sqrt (by norm_num)
  cases hg with
  | x =>
    ext i j
    fin_cases i <;> fin_cases j <;>
      simp [XGateM, cplx, Matrix.mul_apply, Fin.sum_univ_two,
        Matrix.conjTranspose_apply, Matrix.one_apply, Complex.ext_iff]
  | y =>
    ext i j
    fin_cases i <;> fin_cases j <;>
      simp [YGateM, cplx, Matrix.mul_apply, Fin.sum_univ_two,
        Matrix.conjTranspose_apply, Matrix.one_apply, Complex.ext_iff]
  | z =>
    ext i j
    fin_cases i <;> fin_cases j <;>
      simp [ZGateM, cplx, Matrix.mul_apply, Fin.sum_univ_two,
        Matrix.conjTranspose_apply, Matrix.one_apply, Complex.ext_iff]
  | h =>
    ext i j
    fin_cases i <;> fin_cases j <;>
      simp [HadamardGateM, cplx, Matrix.mul_apply, Fin.sum_univ_two,
        Matrix.conjTranspose_apply, Matrix.one_apply, Complex.ext_iff,
        Complex.mul_re, Complex.mul_im] <;>
      field_simp
  | s =>
    ext i j
    fin_cases i <;> fin_cases j <;>
      simp [PhaseGateM, cplx, Matrix.mul_apply, Fin.sum_univ_two,
        Matrix.conjTranspose_apply, Matrix.one_apply, Complex.ext_iff]
  | t =>
    have hsc : Real.sin (Real.pi / 4) ^ 2 + Real.cos (Real.pi / 4) ^ 2 = 1 :=
      Real.sin_sq_add_cos_sq (Real.pi / 4)
    ext i j
    fin_cases i <;> fin_cases j <;>
      simp [TGateM, cplx, Matrix.mul_apply, Fin.sum_univ_two,
        Matrix.conjTranspose_apply, Matrix.one_apply, Complex.ext_iff,
        Complex.mul_re, Complex.mul_im] <;> nlinarith [hsc]
  | rot theta =>
    have hsc : Real.sin theta ^ 2 + Real.cos theta ^ 2 = 1 :=
      Real.sin_sq_add_cos_sq theta
    ext i j
    fin_cases i <;> fin_cases j <;>
      simp [RotationGateM, cplx, Matrix.mul_apply, Fin.sum_univ_two,
        Matrix.conjTranspose_apply, Matrix.one_apply, Complex.ext_iff,
        Complex.mul_re, Complex.mul_im] <;> nlinarith [hsc]

/-- Unitarity transfers to the amplitude pairs: a unitary 2×2 matrix preserves
the summed squared magnitude of each pair it acts on. -/
theorem pair_norm_preserve {g : Matrix (Fin 2) (Fin 2) ℂ}
    (hu : g.conjTranspose * g = 1) (a b : ℂ) :
    Complex.normSq (g 0 0 * a + g 0 1 * b) + Complex.normSq (g 1 0 * a + g 1 1 * b)
      = Complex.normSq a + Complex.normSq b := by
  have e00 : (starRingEnd ℂ) (g 0 0) * g 0 0 + (starRingEnd ℂ) (g 1 0) * g 1 0 = 1 := by
    have h : (g.conjTranspose * g) 0 0 = (1 : Matrix (Fin 2) (Fin 2) ℂ) 0 0 := by rw [hu]
    simpa [Matrix.mul_apply, Fin.sum_univ_two, Matrix.conjTranspose_apply,
      Matrix.one_apply] using h
  have e11 : (starRingEnd ℂ) (g 0 1) * g 0 1 + (starRingEnd ℂ) (g 1 1) * g 1 1 = 1 := by
    have h : (g.conjTranspose * g) 1 1 = (1 : Matrix (Fin 2) (Fin 2) ℂ) 1 1 := by rw [hu]
    simpa [Matrix.mul_apply, Fin.sum_univ_two, Matrix.conjTranspose_apply,
      Matrix.one_apply] using h
  have e01 : (starRingEnd ℂ) (g 0 0) * g 0 1 + (starRingEnd ℂ) (g 1 0) * g 1 1 = 0 := by
    have h : (g.conjTranspose * g) 0 1 = (1 : Matrix (Fin 2) (Fin 2) ℂ) 0 1 := by rw [hu]
    simpa [Matrix.mul_apply, Fin.sum_univ_two, Matrix.conjTranspose_apply,
      Matrix.one_apply] using h
  have e10 : (starRingEnd ℂ) (g 0 1) * g 0 0 + (starRingEnd ℂ) (g 1 1) * g 1 0 = 0 := by
    have h : (g.conjTranspose * g) 1 0 = (1 : Matrix (Fin 2) (Fin 2) ℂ) 1 0 := by rw [hu]
    simpa [Matrix.mul_apply, Fin.sum_univ_two, Matrix.conjTranspose_apply,
      Matrix.one_apply] using h
  have ce01 : g 0 0 * (starRingEnd ℂ) (g 0 1) + g 1 0 * (starRingEnd ℂ) (g 1 1) = 0 := by
    have := congrArg (starRingEnd ℂ) e01
    simpa [map_add, map_mul, mul_comm] using this
  have ce10 : g 0 1 * (starRingEnd ℂ) (g 0 0) + g 1 1 * (starRingEnd ℂ) (g 1 0) = 0 := by
    have := congrArg (starRingEnd ℂ) e10
    simpa [map_add, map_mul, mul_comm] using this
  have key : (g 0 0 * a + g 0 1 * b) * (starRingEnd ℂ) (g 0 0 * a + g 0 1 * b)
      + (g 1 0 * a + g 1 1 * b) * (starRingEnd ℂ) (g 1 0 * a + g 1 1 * b)
      = a * (starRingEnd ℂ) a + b * (starRingEnd ℂ) b := by
    simp only [map_add, map_mul]
    linear_combination (a * (starRingEnd ℂ) a) * e00 + (b * (starRingEnd ℂ) b) * e11
      + (a * (starRingEnd ℂ) b) * ce01 + (b * (starRingEnd ℂ) a) * ce10
  have keyR : ((Complex.normSq (g 0 0 * a + g 0 1 * b)
        + Complex.normSq (g 1 0 * a + g 1 1 * b) : ℝ) : ℂ)
      = ((Complex.normSq a + Complex.normSq b : ℝ) : ℂ) := by
    push_cast
    rw [← Complex.mul_conj, ← Complex.mul_conj, ← Complex.mul_conj, ← Complex.mul_conj]
    exact key
  exact_mod_cast keyR

/-! ## The normalization invariant (`QuantumCircuit::verify_state`) -/

/-- Total squared magnitude of the state
(`self.state.iter().map(|x| x.norm_sqr()).sum()`). -/
noncomputable def normSum (n : ℕ) (s : QState) : ℝ :=
  ∑ j ∈ Finset.range (2 ^ n), Complex.normSq (s j)

/-- Embedding of `QuantumCircuit::verify_state`: `(sum - 1.0).abs() < 1e-10`. -/
noncomputable def verifyState (n : ℕ) (s : QState) : Prop :=
  |normSum n s - 1| < 1e-10

/-- Partition of the basis indices into target-bit pairs: summing any function
over `0..2^n` equals summing, over the indices with target bit 0, the value at
the index plus the value at its target-bit partner. -/
theorem sum_range_pow_pairs {n t : ℕ} (ht : t < n) (f : ℕ → ℝ) :
    ∑ j ∈ Finset.range (2 ^ n), f j
      = ∑ j ∈ (Finset.range (2 ^ n)).filter (fun j => j.testBit t = false),
          (f j + f (setTargetBit t j)) := by
  have hsplit := Finset.sum_filter_add_sum_filter_not (Finset.range (2 ^ n))
    (fun j => j.testBit t = false) f
  have hbij : ∑ j ∈ (Finset.range (2 ^ n)).filter (fun j => ¬ j.testBit t = false), f j
      = ∑ j ∈ (Finset.range (2 ^ n)).filter (fun j => j.testBit t = false),
          f (setTargetBit t j) := by
    refine Finset.sum_nbij' (clearTargetBit t) (setTargetBit t) ?_ ?_ ?_ ?_ ?_
    · intro a ha
      rw [Finset.mem_filter, Finset.mem_range] at ha ⊢
      exact ⟨clearTargetBit_lt ht ha.1, testBit_clearTargetBit_self t a⟩
    · intro a ha
      rw [Finset.mem_filter, Finset.mem_range] at ha ⊢
      refine ⟨setTargetBit_lt ht ha.1, ?_⟩
      simp [testBit_setTargetBit_self]
    · intro a ha
      rw [Finset.mem_filter] at ha
      have hb : a.testBit t = true := by
        cases h : a.testBit t
        · exact absurd h ha.2
        · rfl
      rw [setTargetBit_clearTargetBit, setTargetBit_of_testBit_true hb]
    · intro a ha
      rw [Finset.mem_filter] at ha
      rw [clearTargetBit_setTargetBit, clearTargetBit_of_testBit_false ha.2]
    · intro a ha
      rw [Finset.mem_filter] at ha
      have hb : a.testBit t = true := by
        cases h : a.testBit t
        · exact absurd h ha.2
        · rfl
      rw [setTargetBit_clearTargetBit, setTargetBit_of_testBit_true hb]
  rw [← hsplit, hbij, ← Finset.sum_add_distrib]

/-- The gate-application loop preserves the total squared magnitude whenever the
gate matrix is unitary. -/
theorem normSum_applyGate {n t : ℕ} (ht : t < n) {g : Matrix (Fin 2) (Fin 2) ℂ}
    (hu : g.conjTranspose * g = 1) (s : QState) :
    normSum n (applyGate n g t s) = normSum n s := by
  rw [normSum, normSum, sum_range_pow_pairs ht, sum_range_pow_pairs ht]
  refine Finset.sum_congr rfl fun j hj => ?_
  rw [Finset.mem_filter, Finset.mem_range] at hj
  obtain ⟨hjlt, hjb⟩ := hj
  have h0 : applyGate n g t s j = g 0 0 * s j + g 0 1 * s (setTargetBit t j) := by
    rw [applyGate_eval ht, if_pos hjlt, gatePointwise,
      if_pos ((land_shift_eq_zero_iff t j).mpr hjb)]
  have h1 : applyGate n g t s (setTargetBit t j)
      = g 1 0 * s j + g 1 1 * s (setTargetBit t j) := by
    rw [applyGate_eval ht, if_pos (setTargetBit_lt ht hjlt), gatePointwise,
      if_neg (by
        rw [land_shift_eq_zero_iff]
        simp [testBit_setTargetBit_self]),
      clearTargetBit_setTargetBit, clearTargetBit_of_testBit_false hjb]
  rw [h0, h1, pair_norm_preserve hu]

/-- The controlled-gate loop preserves the total squared magnitude whenever the
gate matrix is unitary. -/
theorem normSum_applyControlledGate {n c t : ℕ} (hc : c < n) (ht : t < n)
    (hct : c ≠ t) {g : Matrix (Fin 2) (Fin 2) ℂ}
    (hu : g.conjTranspose * g = 1) (s : QState) :
    normSum n (applyControlledGate n g c t s) = normSum n s := by
  rw [normSum, normSum, sum_range_pow_pairs ht, sum_range_pow_pairs ht]
  refine Finset.sum_congr rfl fun j hj => ?_
  rw [Finset.mem_filter, Finset.mem_range] at hj
  obtain ⟨hjlt, hjb⟩ := hj
  have hcc := C2_apply_controlled_gate_pairs hc ht hct g s
  by_cases hjc : j.testBit c
  · have hp := (hcc.1 j hjlt hjc)
    rw [clearTargetBit_of_testBit_false hjb] at hp
    rw [hp.1, hp.2, pair_norm_preserve hu]
  · have hjc' : j.testBit c = false := Bool.eq_false_iff.mpr hjc
    have hsc : (setTargetBit t j).testBit c = false := by
      rw [testBit_setTargetBit_ne t j c hct]
      exact hjc'
    rw [hcc.2 j hjlt hjc',
      hcc.2 (setTargetBit t j) (setTargetBit_lt ht hjlt) hsc]

theorem normSq_cplx_real (x : ℝ) : Complex.normSq (cplx x 0) = x * x := by
  simp [cplx, Complex.normSq_mk]

theorem probOne_nonneg (n t : ℕ) (s : QState) : 0 ≤ probOne n t s := by
  rw [probOne_eval]
  exact Finset.sum_nonneg fun i _ => Complex.normSq_nonneg _

theorem measureResult_iff (n t : ℕ) (r : ℝ) (s : QState) :
    measureResult n t r s = true ↔ r < probOne n t s := by
  rw [measureResult]
  by_cases h : r < probOne n t s
  · simp [h]
  · simp [h]

/-- The collapse step of `measure` restores exact normalization: the surviving
squared mass is exactly the square of the divisor. -/
theorem normSum_measureCollapse {n t : ℕ} (_ht : t < n) {r : ℝ} (h0 : 0 ≤ r)
    (h1 : r < 1) {s : QState} (hs : normSum n s = 1) :
    normSum n (measureCollapse n t r s) = 1 := by
  have hp1nn : 0 ≤ probOne n t s := probOne_nonneg n t s
  have hstep : normSum n (measureCollapse n t r s)
      = (∑ j ∈ (Finset.range (2 ^ n)).filter
            (fun j => j.testBit t = measureResult n t r s), Complex.normSq (s j))
        / (measureNorm n t r s * measureNorm n t r s) := by
    rw [normSum, Finset.sum_div, Finset.sum_filter]
    refine Finset.sum_congr rfl fun j hj => ?_
    rw [Finset.mem_range] at hj
    rw [measureCollapse_eval]
    by_cases hc : j.testBit t = measureResult n t r s
    · rw [if_pos ⟨hj, hc⟩, if_pos hc, Complex.normSq_div, normSq_cplx_real]
    · rw [if_neg (fun h => hc h.2), if_neg hc, Complex.normSq_zero]
  rw [hstep]
  by_cases hrp : r < probOne n t s
  · have hres : measureResult n t r s = true := (measureResult_iff n t r s).mpr hrp
    have hsum : ∑ j ∈ (Finset.range (2 ^ n)).filter
        (fun j => j.testBit t = measureResult n t r s), Complex.normSq (s j)
        = probOne n t s := by
      rw [hres, probOne_eval]
    have hnrm : measureNorm n t r s * measureNorm n t r s = probOne n t s := by
      rw [measureNorm, if_pos hres, Real.mul_self_sqrt hp1nn]
    rw [hsum, hnrm]
    exact div_self (by linarith)
  · have hres : measureResult n t r s = false := by
      cases h : measureResult n t r s
      · rfl
      · exact absurd ((measureResult_iff n t r s).mp h) hrp
    have hple : probOne n t s ≤ r := not_lt.mp hrp
    have hfilter : (Finset.range (2 ^ n)).filter (fun j => ¬ j.testBit t = true)
        = (Finset.range (2 ^ n)).filter (fun j => j.testBit t = false) := by
      apply Finset.filter_congr
      intro x _
      simp
    have hsplit : probOne n t s
        + ∑ j ∈ (Finset.range (2 ^ n)).filter (fun j => j.testBit t = false),
            Complex.normSq (s j) = 1 := by
      rw [probOne_eval, ← hfilter,
        Finset.sum_filter_add_sum_filter_not (Finset.range (2 ^ n))
          (fun j => j.testBit t = true) (fun j => Complex.normSq (s j))]
      exact hs
    have hsum : ∑ j ∈ (Finset.range (2 ^ n)).filter
        (fun j => j.testBit t = measureResult n t r s), Complex.normSq (s j)
        = 1 - probOne n t s := by
      rw [hres]
      linarith
    have hnrm : measureNorm n t r s * measureNorm n t r s = 1 - probOne n t s := by
      rw [measureNorm, if_neg (by rw [hres]; exact Bool.false_ne_true),
        Real.mul_self_sqrt (by linarith)]
    rw [hsum, hnrm]
    exact div_self (by linarith)

/-! ## Construction, reset, and reachable states -/

/-- Initial state built by `QuantumCircuit::new`: a zero array with index 0 set
to `1+0i`. -/
noncomputable def initState : QState := Function.update (fun _ => (0 : ℂ)) 0 1

/-- State after `QuantumCircuit::reset`: `fill(0)` followed by `state[0] = 1`. -/
noncomputable def resetState : QState := Function.update (fun _ => (0 : ℂ)) 0 1

theorem normSum_initState (n : ℕ) : normSum n initState = 1 := by
  rw [normSum]
  have hcong : ∀ j ∈ Finset.range (2 ^ n),
      Complex.normSq (initState j) = if j = 0 then 1 else 0 := by
    intro j _
    rw [initState, Function.update_apply]
    split <;> simp
  rw [Finset.sum_congr rfl hcong, Finset.sum_ite_eq' (Finset.range (2 ^ n)) 0 (fun _ => 1),
    if_pos (Finset.mem_range.mpr (Nat.pos_pow_of_pos n (by norm_num)))]

theorem normSum_resetState (n : ℕ) : normSum n resetState = 1 :=
  normSum_initState n

/-- States reachable from `new(n)` by successful `apply_gate`,
`apply_controlled_gate`, `measure` (with a sample in `[0,1)`), and `reset`
calls, with gates drawn from the catalog. -/
inductive Reachable (n : ℕ) : QState → Prop
  | init : Reachable n initState
  | gate {s : QState} {g : Matrix (Fin 2) (Fin 2) ℂ} {t : ℕ} :
      Reachable n s → CatalogGate g → t < n → Reachable n (applyGate n g t s)
  | cgate {s : QState} {g : Matrix (Fin 2) (Fin 2) ℂ} {c t : ℕ} :
      Reachable n s → CatalogGate g → c < n → t < n → c ≠ t →
      Reachable n (applyControlledGate n g c t s)
  | meas {s : QState} {t : ℕ} {r : ℝ} :
      Reachable n s → t < n → 0 ≤ r → r < 1 → Reachable n (measureCollapse n t r s)
  | reset {s : QState} : Reachable n s → Reachable n resetState

theorem reachable_normSum {n : ℕ} {s : QState} (h : Reachable n s) :
    normSum n s = 1 := by
  induction h with
  | init => exact normSum_initState n
  | gate _ hg ht ih => exact (normSum_applyGate ht (catalog_unitary hg) _).trans ih
  | cgate _ hg hc ht hct ih =>
    exact (normSum_applyControlledGate hc ht hct (catalog_unitary hg) _).trans ih
  | meas _ ht h0 h1 ih => exact normSum_measureCollapse ht h0 h1 ih
  | reset _ _ => exact normSum_resetState n

/-- C4: for every reachable state of the circuit — any sequence of successful
`apply_gate`, `apply_controlled_gate` (catalog gates), `measure`, and `reset`
calls starting from `new(n)` — `verify_state()` holds: the squared magnitudes of
all amplitudes sum to 1 within the stated `1e-10` tolerance; in the exact-real
model every operation preserves the normalization exactly. -/
theorem C4_reachable_verify_state {n : ℕ} {s : QState} (h : Reachable n s) :
    verifyState n s := by
  rw [verifyState, reachable_normSum h]
  norm_num

/-- Concrete instance of C4: the freshly constructed circuit passes
`verify_state`. -/
theorem C4_reachable_verify_state_witness : verifyState 1 initState :=
  C4_reachable_verify_state Reachable.init

/-! ## Composition of gate applications (for the self-inverse properties) -/

/-- Two successive `apply_gate` calls on the same target compose as the product
of the two matrices. -/
theorem applyGate_applyGate {n t : ℕ} (ht : t < n) (g h : Matrix (Fin 2) (Fin 2) ℂ)
    (s : QState) (j : ℕ) (hj : j < 2 ^ n) :
    applyGate n g t (applyGate n h t s) j = applyGate n (g * h) t s j := by
  have hset : setTargetBit t j < 2 ^ n := setTargetBit_lt ht hj
  have hclear : clearTargetBit t j < 2 ^ n := clearTargetBit_lt ht hj
  have hmul : ∀ a b : Fin 2, (g * h) a b = g a 0 * h 0 b + g a 1 * h 1 b := by
    intro a b
    rw [Matrix.mul_apply, Fin.sum_univ_two]
  rw [applyGate_eval ht, applyGate_eval ht, if_pos hj, if_pos hj,
    gatePointwise, gatePointwise]
  by_cases hb : j.testBit t
  · rw [if_neg (by rw [land_shift_eq_zero_iff]; simp [hb]),
      if_neg (by rw [land_shift_eq_zero_iff]; simp [hb])]
    have hcb : (clearTargetBit t j).testBit t = false := testBit_clearTargetBit_self t j
    have hu0 : applyGate n h t s (clearTargetBit t j)
        = h 0 0 * s (clearTargetBit t j) + h 0 1 * s j := by
      rw [applyGate_eval ht, if_pos hclear, gatePointwise,
        if_pos ((land_shift_eq_zero_iff t _).mpr hcb),
        setTargetBit_clearTargetBit, setTargetBit_of_testBit_true hb]
    have hu1 : applyGate n h t s j
        = h 1 0 * s (clearTargetBit t j) + h 1 1 * s j := by
      rw [applyGate_eval ht, if_pos hj, gatePointwise,
        if_neg (by rw [land_shift_eq_zero_iff]; simp [hb])]
    rw [hu0, hu1, hmul, hmul]
    ring
  · have hbf : j.testBit t = false := Bool.eq_false_iff.mpr hb
    rw [if_pos ((land_shift_eq_zero_iff t j).mpr hbf),
      if_pos ((land_shift_eq_zero_iff t j).mpr hbf)]
    have hu0 : applyGate n h t s j = h 0 0 * s j + h 0 1 * s (setTargetBit t j) := by
      rw [applyGate_eval ht, if_pos hj, gatePointwise,
        if_pos ((land_shift_eq_zero_iff t j).mpr hbf)]
    have hu1 : applyGate n h t s (setTargetBit t j)
        = h 1 0 * s j + h 1 1 * s (setTargetBit t j) := by
      rw [applyGate_eval ht, if_pos hset, gatePointwise,
        if_neg (by rw [land_shift_eq_zero_iff]; simp [testBit_setTargetBit_self]),
        clearTargetBit_setTargetBit, clearTargetBit_of_testBit_false hbf]
    rw [hu0, hu1, hmul, hmul]
    ring

/-- An `apply_gate` call with the identity matrix leaves every in-range
amplitude unchanged. -/
theorem applyGate_one {n t : ℕ} (ht : t < n) (s : QState) (j : ℕ) (hj : j < 2 ^ n) :
    applyGate n 1 t s j = s j := by
  rw [applyGate_eval ht, if_pos hj, gatePointwise]
  by_cases hb : j.testBit t
  · rw [if_neg (by rw [land_shift_eq_zero_iff]; simp [hb])]
    simp [Matrix.one_apply]
  · rw [if_pos ((land_shift_eq_zero_iff t j).mpr (Bool.eq_false_iff.mpr hb))]
    simp [Matrix.one_apply]

theorem XGateM_mul_self : XGateM * XGateM = 1 := by
  ext i j
  fin_cases i <;> fin_cases j <;>
    simp [XGateM, cplx, Matrix.mul_apply, Fin.sum_univ_two, Matrix.one_apply,
      Complex.ext_iff]

theorem ZGateM_mul_self : ZGateM * ZGateM = 1 := by
  ext i j
  fin_cases i <;> fin_cases j <;>
    simp [ZGateM, cplx, Matrix.mul_apply, Fin.sum_univ_two, Matrix.one_apply,
      Complex.ext_iff]

theorem HadamardGateM_mul_self : HadamardGateM * HadamardGateM = 1 := by
  have hs2 : Real.sqrt 2 * Real.sqrt 2 = 2 := Real.mul_self_sqrt (by norm_num)
  ext i j
  fin_cases i <;> fin_cases j <;>
    simp [HadamardGateM, cplx, Matrix.mul_apply, Fin.sum_univ_two, Matrix.one_apply,
      Complex.ext_iff, Complex.mul_re, Complex.mul_im] <;>
    field_simp

/-- C9: applying X twice to any single qubit via `apply_gate` restores every
amplitude of the original state; the same holds for Z; applying H twice also
restores the original amplitudes exactly (global sign `+1`), which is "up to a
global sign convention" as claimed. -/
theorem C9_self_inverse_gates {n t : ℕ} (ht : t < n) (s : QState) :
    (∀ j, j < 2 ^ n → applyGate n XGateM t (applyGate n XGateM t s) j = s j) ∧
    (∀ j, j < 2 ^ n → applyGate n ZGateM t (applyGate n ZGateM t s) j = s j) ∧
    (∀ j, j < 2 ^ n → applyGate n HadamardGateM t (applyGate n HadamardGateM t s) j = s j) := by
  refine ⟨fun j hj => ?_, fun j hj => ?_, fun j hj => ?_⟩
  · rw [applyGate_applyGate ht _ _ s j hj, XGateM_mul_self, applyGate_one ht s j hj]
  · rw [applyGate_applyGate ht _ _ s j hj, ZGateM_mul_self, applyGate_one ht s j hj]
  · rw [applyGate_applyGate ht _ _ s j hj, HadamardGateM_mul_self, applyGate_one ht s j hj]

/-- Concrete instance of C9 at `n = 1`, `t = 0`, basis state `|0⟩`. -/
theorem C9_self_inverse_gates_witness :
    (∀ j, j < 2 ^ 1 →
      applyGate 1 XGateM 0 (applyGate 1 XGateM 0 (fun i => if i = 0 then 1 else 0)) j
        = (fun i : ℕ => if i = 0 then (1 : ℂ) else 0) j) ∧
    (∀ j, j < 2 ^ 1 →
      applyGate 1 ZGateM 0 (applyGate 1 ZGateM 0 (fun i => if i = 0 then 1 else 0)) j
        = (fun i : ℕ => if i = 0 then (1 : ℂ) else 0) j) ∧
    (∀ j, j < 2 ^ 1 →
      applyGate 1 HadamardGateM 0
          (applyGate 1 HadamardGateM 0 (fun i => if i = 0 then 1 else 0)) j
        = (fun i : ℕ => if i = 0 then (1 : ℂ) else 0) j) :=
  C9_self_inverse_gates (by decide) (fun i => if i = 0 then 1 else 0)

/-! ## Construction (`QuantumCircuit::new`) and claim C5

The Rust signature is `pub fn new(n_qubits: usize) -> Self`: there is no error
channel at all, and the `n_qubits == 0` case runs `panic!(..)` (a fatal abort);
the crate's own test `test_invalid_qubit_count` is `#[should_panic]`. -/

/-- Outcome of `QuantumCircuit::new`: either a process-aborting panic with its
message, or a constructed circuit. -/
inductive NewResult
  | panicked (msg : String)
  | ok (nQubits : ℕ) (state : QState)

/-- Embedding of `QuantumCircuit::new`. -/
noncomputable def quantumCircuitNew (nQubits : ℕ) : NewResult :=
  if nQubits = 0 then NewResult.panicked "Number of qubits must be greater than 0"
  else NewResult.ok nQubits initState

/-- C5 counterexample: `new(0)` panics (aborts) — it does not hand any
recoverable error value back to the caller; the constructor's result type has no
error alternative at all. -/
theorem C5_new_zero_counterexample :
    quantumCircuitNew 0 = NewResult.panicked "Number of qubits must be greater than 0" ∧
    ∀ m st, quantumCircuitNew 0 ≠ NewResult.ok m st := by
  refine ⟨by rw [quantumCircuitNew, if_pos rfl], ?_⟩
  intro m st h
  rw [quantumCircuitNew, if_pos rfl] at h
  exact NewResult.noConfusion h

/-- C5 amended: constructing with qubit count 0 panics with message "Number of
qubits must be greater than 0" — a fatal abort, not a recoverable
`InvalidQubitCount` error — while every `n ≥ 1` yields a circuit initialized to
`|0…0⟩` (amplitude 1 at index 0, 0 elsewhere). -/
theorem C5_new_zero_panics (n : ℕ) :
    quantumCircuitNew 0 = NewResult.panicked "Number of qubits must be greater than 0" ∧
    (0 < n → quantumCircuitNew n = NewResult.ok n initState ∧
      initState 0 = 1 ∧ ∀ j, j ≠ 0 → initState j = 0) := by
  refine ⟨by rw [quantumCircuitNew, if_pos rfl], fun hn => ⟨?_, ?_, ?_⟩⟩
  · rw [quantumCircuitNew, if_neg (by omega)]
  · rw [initState, Function.update_same]
  · intro j hj
    rw [initState, Function.update_noteq hj]

/-- Concrete instance of C5 (amended) at `n = 1`. -/
theorem C5_new_zero_panics_witness :
    quantumCircuitNew 1 = NewResult.ok 1 initState ∧
    initState 0 = 1 ∧ ∀ j, j ≠ 0 → initState j = 0 :=
  (C5_new_zero_panics 1).2 (by norm_num)

/-! ## The specialized CNOT routine (`CNOTGate::apply_controlled`) and claim C7 -/

/-- Embedding of `CNOTGate::apply_controlled`, which requires a 4-amplitude
(2-qubit) state (it panics on any other length): it clones the state and, only
when the literal value `control == 1`, swaps the amplitudes at indices 2 and 3;
the `target` argument is ignored entirely. -/
noncomputable def cnotApplyControlled (s : QState) (control _target : ℕ) : QState :=
  if control = 1 then Function.update (Function.update s 2 (s 3)) 3 (s 2)
  else s

/-- C7: there is a control/target assignment on which the specialized CNOT
routine disagrees with the general bit-masking controlled-gate algorithm applied
with the X gate: with `control = 0`, `target = 1` on the 2-qubit basis state of
index 1, the general algorithm moves the amplitude to index 3 while the
specialized routine returns the state unchanged. -/
theorem C7_specialized_cnot_disagrees :
    cnotApplyControlled (fun j => if j = 1 then 1 else 0) 0 1 3
      ≠ applyControlledGate 2 XGateM 0 1 (fun j => if j = 1 then 1 else 0) 3 := by
  have hL : cnotApplyControlled (fun j => if j = 1 then 1 else 0) 0 1 3 = 0 := by
    rw [cnotApplyControlled, if_neg (by norm_num)]
    norm_num
  have hclear : clearTargetBit 1 3 = 1 := by decide
  have hR : applyControlledGate 2 XGateM 0 1 (fun j => if j = 1 then 1 else 0) 3 = 1 := by
    rw [applyControlledGate,
      applyControlledGate_fold_eval XGateM (by decide : (0 : ℕ) ≠ 1) _ (2 ^ 2) 3,
      if_pos ⟨by decide, by rw [hclear]; decide⟩, gatePointwise,
      if_neg (by decide), hclear]
    norm_num [XGateM, cplx, Complex.ext_iff]
  rw [hL, hR]
  exact zero_ne_one

/-! ## Index validation (claim C8): the checked method wrappers

`apply_gate` and `apply_controlled_gate` return `Result<(), String>` and take
`&mut self`; the early `return Err(...)` paths leave the state untouched.  They
are embedded in state-passing style: the result paired with the (possibly
unchanged) state.  The spec's error names `InvalidQubitIndex` and
`ControlEqualsTarget` correspond to the literal strings built by the source. -/

/-- Embedding of `QuantumCircuit::apply_gate` including its bounds check. -/
noncomputable def applyGateChecked (n : ℕ) (g : Matrix (Fin 2) (Fin 2) ℂ)
    (target : ℕ) (s : QState) : Except String Unit × QState :=
  if target ≥ n then
    (Except.error ("Target qubit " ++ toString target
      ++ " is out of range for circuit with " ++ toString n ++ " qubits"), s)
  else (Except.ok (), applyGate n g target s)

/-- Embedding of `QuantumCircuit::apply_controlled_gate` including its checks. -/
noncomputable def applyControlledGateChecked (n : ℕ) (g : Matrix (Fin 2) (Fin 2) ℂ)
    (control target : ℕ) (s : QState) : Except String Unit × QState :=
  if control ≥ n ∨ target ≥ n then
    (Except.error ("Qubit indices out of range for circuit with "
      ++ toString n ++ " qubits"), s)
  else if control = target then
    (Except.error "Control and target qubits must be different", s)
  else (Except.ok (), applyControlledGate n g control target s)

/-- C8: `apply_gate` with `target ≥ n` returns the out-of-range error
(`InvalidQubitIndex`) and leaves the state completely unmodified;
`apply_controlled_gate` with `control ≥ n` or `target ≥ n` returns the
out-of-range error, and with in-range `control = target` returns the
control-equals-target error, in both cases leaving the state unmodified. -/
theorem C8_index_validation (n : ℕ) (g : Matrix (Fin 2) (Fin 2) ℂ)
    (control target : ℕ) (s : QState) :
    (target ≥ n →
      applyGateChecked n g target s
        = (Except.error ("Target qubit " ++ toString target
            ++ " is out of range for circuit with " ++ toString n ++ " qubits"), s)) ∧
    (control ≥ n ∨ target ≥ n →
      applyControlledGateChecked n g control target s
        = (Except.error ("Qubit indices out of range for circuit with "
            ++ toString n ++ " qubits"), s)) ∧
    (control < n → target < n → control = target →
      applyControlledGateChecked n g control target s
        = (Except.error "Control and target qubits must be different", s)) := by
  refine ⟨fun h => ?_, fun h => ?_, fun hc ht h => ?_⟩
  · rw [applyGateChecked, if_pos h]
  · rw [applyControlledGateChecked, if_pos h]
  · rw [applyControlledGateChecked, if_neg (by omega), if_pos h]

/-- Concrete instances of C8: `apply_gate(_, 5)` on 1 qubit,
`apply_controlled_gate(_, 0, 5)` on 1 qubit, and
`apply_controlled_gate(_, 1, 1)` on 2 qubits. -/
theorem C8_index_validation_witness :
    applyGateChecked 1 XGateM 5 initState
      = (Except.error ("Target qubit " ++ toString (5 : ℕ)
          ++ " is out of range for circuit with " ++ toString (1 : ℕ) ++ " qubits"),
         initState) ∧
    applyControlledGateChecked 1 XGateM 0 5 initState
      = (Except.error ("Qubit indices out of range for circuit with "
          ++ toString (1 : ℕ) ++ " qubits"), initState) ∧
    applyControlledGateChecked 2 XGateM 1 1 initState
      = (Except.error "Control and target qubits must be different", initState) :=
  ⟨(C8_index_validation 1 XGateM 0 5 initState).1 (by norm_num),
   (C8_index_validation 1 XGateM 0 5 initState).2.1 (Or.inr (by norm_num)),
   (C8_index_validation 2 XGateM 1 1 initState).2.2 (by norm_num) (by norm_num) rfl⟩

/-! ## Frame properties (claim C10)

`QuantumCircuit` owns `state: DVector<Complex<f64>>` — a dynamically sized
vector — and `n_qubits: usize`.  To make "the length of the state vector never
changes" a real statement, the struct is embedded here with the state as a
`List ℂ`; the loops are the same `0..state.len()` folds as above, with the
in-place writes as `List.set` and the reads `self.state[i]` as `l.getD i 0`
(for in-range executions these agree with the function-based embedding).  The
`&self` query methods are given in the same state-passing shape as the `&mut
self` mutators, returning the circuit they were called on. -/

structure QuantumCircuit where
  state : List ℂ
  nQubits : ℕ

theorem foldl_length_invariant (step : List ℂ → ℕ → List ℂ)
    (hstep : ∀ ns i, (step ns i).length = ns.length) (l0 : List ℂ) (idxs : List ℕ) :
    (idxs.foldl step l0).length = l0.length := by
  induction idxs generalizing l0 with
  | nil => rfl
  | cons a as ih => rw [List.foldl_cons, ih, hstep]

/-- List-level `apply_gate` loop: allocate a zero vector of `state.len()`
entries and write each target-bit pair transformed by the gate matrix. -/
noncomputable def listApplyGate (g : Matrix (Fin 2) (Fin 2) ℂ) (t : ℕ)
    (l : List ℂ) : List ℂ :=
  (List.range l.length).foldl
    (fun ns i =>
      if i &&& (1 <<< t) ≠ 0 then ns
      else
        (ns.set i (g 0 0 * l.getD i 0 + g 0 1 * l.getD (setTargetBit t i) 0)).set
          (setTargetBit t i)
          (g 1 0 * l.getD i 0 + g 1 1 * l.getD (setTargetBit t i) 0))
    (List.replicate l.length 0)

/-- List-level `apply_controlled_gate` loop, starting from the cloned state. -/
noncomputable def listApplyControlledGate (g : Matrix (Fin 2) (Fin 2) ℂ)
    (c t : ℕ) (l : List ℂ) : List ℂ :=
  (List.range l.length).foldl
    (fun ns i =>
      if i &&& (1 <<< c) ≠ 0 then
        (ns.set (clearTargetBit t i)
          (g 0 0 * l.getD (clearTargetBit t i) 0 + g 0 1 * l.getD (setTargetBit t i) 0)).set
          (setTargetBit t i)
          (g 1 0 * l.getD (clearTargetBit t i) 0 + g 1 1 * l.getD (setTargetBit t i) 0)
      else ns)
    l

/-- List-level `prob_one` accumulation of `measure`. -/
noncomputable def listProbOne (t : ℕ) (l : List ℂ) : ℝ :=
  (List.range l.length).foldl
    (fun acc i =>
      if i &&& (1 <<< t) ≠ 0 then acc + Complex.normSq (l.getD i 0) else acc) 0

open Classical in
/-- List-level measurement outcome for the drawn sample `r`. -/
noncomputable def listMeasureResult (t : ℕ) (r : ℝ) (l : List ℂ) : Bool :=
  if r < listProbOne t l then true else false

/-- List-level collapse divisor. -/
noncomputable def listMeasureNorm (t : ℕ) (r : ℝ) (l : List ℂ) : ℝ :=
  if listMeasureResult t r l = true then Real.sqrt (listProbOne t l)
  else Real.sqrt (1 - listProbOne t l)

/-- List-level collapse loop of `measure`. -/
noncomputable def listMeasureCollapse (t : ℕ) (r : ℝ) (l : List ℂ) : List ℂ :=
  (List.range l.length).foldl
    (fun ns i =>
      if (i &&& (1 <<< t) != 0) = listMeasureResult t r l then
        ns.set i (l.getD i 0 / cplx (listMeasureNorm t r l) 0)
      else ns)
    (List.replicate l.length 0)

/-- List-level `reset`: `fill(0)` then `state[0] = 1`. -/
noncomputable def listReset (l : List ℂ) : List ℂ :=
  (l.map fun _ => (0 : ℂ)).set 0 1

/-- Method `apply_gate` on the circuit struct (state-passing). -/
noncomputable def QuantumCircuit.applyGateM (c : QuantumCircuit)
    (g : Matrix (Fin 2) (Fin 2) ℂ) (target : ℕ) : Except String Unit × QuantumCircuit :=
  if target ≥ c.nQubits then
    (Except.error ("Target qubit " ++ toString target
      ++ " is out of range for circuit with " ++ toString c.nQubits ++ " qubits"), c)
  else (Except.ok (), ⟨listApplyGate g target c.state, c.nQubits⟩)

/-- Method `apply_controlled_gate` on the circuit struct (state-passing). -/
noncomputable def QuantumCircuit.applyControlledGateM (c : QuantumCircuit)
    (g : Matrix (Fin 2) (Fin 2) ℂ) (control target : ℕ) :
    Except String Unit × QuantumCircuit :=
  if control ≥ c.nQubits ∨ target ≥ c.nQubits then
    (Except.error ("Qubit indices out of range for circuit with "
      ++ toString c.nQubits ++ " qubits"), c)
  else if control = target then
    (Except.error "Control and target qubits must be different", c)
  else (Except.ok (), ⟨listApplyControlledGate g control target c.state, c.nQubits⟩)

/-- Method `measure` on the circuit struct (state-passing), with sample `r`. -/
noncomputable def QuantumCircuit.measureM (c : QuantumCircuit) (target : ℕ) (r : ℝ) :
    Except String Bool × QuantumCircuit :=
  if target ≥ c.nQubits then
    (Except.error ("Target qubit " ++ toString target
      ++ " is out of range for circuit with " ++ toString c.nQubits ++ " qubits"), c)
  else (Except.ok (listMeasureResult target r c.state),
    ⟨listMeasureCollapse target r c.state, c.nQubits⟩)

/-- Method `reset` on the circuit struct. -/
noncomputable def QuantumCircuit.resetM (c : QuantumCircuit) : QuantumCircuit :=
  ⟨listReset c.state, c.nQubits⟩

/-- Query `get_state` (`&self`): the amplitude list, circuit untouched. -/
noncomputable def QuantumCircuit.getStateM (c : QuantumCircuit) :
    List ℂ × QuantumCircuit :=
  (c.state, c)

/-- Query `get_probability` (`&self`). -/
noncomputable def QuantumCircuit.getProbabilityM (c : QuantumCircuit)
    (basisState : ℕ) : Except String ℝ × QuantumCircuit :=
  (if basisState ≥ c.state.length then
    Except.error ("Basis state " ++ toString basisState ++ " is out of range")
   else Except.ok (Complex.normSq (c.state.getD basisState 0)), c)

/-- Query `verify_state` (`&self`). -/
noncomputable def QuantumCircuit.verifyStateM (c : QuantumCircuit) :
    Prop × QuantumCircuit :=
  (|(c.state.map Complex.normSq).sum - 1| < 1e-10, c)

/-- Query `n_qubits` (`&self`). -/
noncomputable def QuantumCircuit.nQubitsM (c : QuantumCircuit) : ℕ × QuantumCircuit :=
  (c.nQubits, c)

theorem length_listApplyGate (g : Matrix (Fin 2) (Fin 2) ℂ) (t : ℕ) (l : List ℂ) :
    (listApplyGate g t l).length = l.length := by
  rw [listApplyGate, foldl_length_invariant, List.length_replicate]
  intro ns i
  by_cases h : i &&& (1 <<< t) ≠ 0
  · rw [if_pos h]
  · rw [if_neg h]
    simp [List.length_set]

theorem length_listApplyControlledGate (g : Matrix (Fin 2) (Fin 2) ℂ) (c t : ℕ)
    (l : List ℂ) : (listApplyControlledGate g c t l).length = l.length := by
  rw [listApplyControlledGate, foldl_length_invariant]
  intro ns i
  by_cases h : i &&& (1 <<< c) ≠ 0
  · rw [if_pos h]
    simp [List.length_set]
  · rw [if_neg h]

theorem length_listMeasureCollapse (t : ℕ) (r : ℝ) (l : List ℂ) :
    (listMeasureCollapse t r l).length = l.length := by
  rw [listMeasureCollapse, foldl_length_invariant, List.length_replicate]
  intro ns i
  by_cases h : (i &&& (1 <<< t) != 0) = listMeasureResult t r l
  · rw [if_pos h]
    simp [List.length_set]
  · rw [if_neg h]

theorem length_listReset (l : List ℂ) : (listReset l).length = l.length := by
  rw [listReset]
  simp [List.length_set, List.length_map]

/-- C10: every operation of the circuit engine leaves the qubit count and the
length of the state vector unchanged (so a vector of length `2^n` stays of
length `2^n`), and the query operations `get_state`, `get_probability`,
`verify_state`, `n_qubits` return the circuit exactly as it was. -/
theorem C10_frame_preservation (c : QuantumCircuit) (g : Matrix (Fin 2) (Fin 2) ℂ)
    (control target basisState : ℕ) (r : ℝ) :
    ((c.applyGateM g target).2.nQubits = c.nQubits ∧
      (c.applyGateM g target).2.state.length = c.state.length) ∧
    ((c.applyControlledGateM g control target).2.nQubits = c.nQubits ∧
      (c.applyControlledGateM g control target).2.state.length = c.state.length) ∧
    ((c.measureM target r).2.nQubits = c.nQubits ∧
      (c.measureM target r).2.state.length = c.state.length) ∧
    (c.resetM.nQubits = c.nQubits ∧ c.resetM.state.length = c.state.length) ∧
    (c.getStateM.2 = c ∧ (c.getProbabilityM basisState).2 = c ∧
      c.verifyStateM.2 = c ∧ c.nQubitsM.2 = c) := by
  refine ⟨⟨?_, ?_⟩, ⟨?_, ?_⟩, ⟨?_, ?_⟩, ⟨rfl, length_listReset c.state⟩,
    rfl, rfl, rfl, rfl⟩
  · rw [QuantumCircuit.applyGateM]
    split <;> rfl
  · rw [QuantumCircuit.applyGateM]
    split
    · rfl
    · exact length_listApplyGate g target c.state
  · rw [QuantumCircuit.applyControlledGateM]
    split
    · rfl
    · split <;> rfl
  · rw [QuantumCircuit.applyControlledGateM]
    split
    · rfl
    · split
      · rfl
      · exact length_listApplyControlledGate g control target c.state
  · rw [QuantumCircuit.measureM]
    split <;> rfl
  · rw [QuantumCircuit.measureM]
    split
    · rfl
    · exact length_listMeasureCollapse target r c.state

end QuantumSim
